import Mathlib

set_option exponentiation.threshold 8192
set_option maxRecDepth 100000

/-!
# Chemistry calculator (`ХимияКалкТН.cpp`): reader and formula library

The program computes on C++ `double`s.  They are embedded as IEEE-754
binary64 data with exact integer significands; every arithmetic operation
rounds to nearest, ties to even, one operation at a time (no extended
precision, no fused multiply-add), so the formulas evaluate here to the very
doubles the program produces.  The routines `log`, `log10` and `pow` belong to
the C library and are parameters.

Standard input is embedded as the sequence of lexical items that
`cin >> value` and `cin.ignore` act on, together with the `eofbit` and
`failbit` of the stream; standard output as the list of insertions made.
Loops carry a bound on their iterations, and the result `none` stands for
"no return within the bound".
-/

namespace ChemCalc

/-- IEEE-754 binary64 datum.  `fin s m e` is the finite number
`(-1)^s * m * 2^e * 2^(-1074)`: `e` counts binades above the least
subnormal exponent, so the canonical doubles are those with `m < 2^53`,
`e ≤ 2045` and (`2^52 ≤ m` or `e = 0`). -/
inductive F64
  | nan
  | inf (neg : Bool)
  | fin (neg : Bool) (m : Nat) (e : Nat)
  deriving DecidableEq, Repr

namespace F64

/-- Nearest integer to `n / d`, ties to the even one. -/
def roundHalfEven (n d : Nat) : Nat :=
  let q := n / d
  let r := n % d
  if 2 * r < d then q
  else if d < 2 * r then q + 1
  else if q % 2 = 0 then q else q + 1

/-- Binary search for the floor of the binary logarithm: exact for
`n < 2^(2^k)`, and never above it. -/
def ilog2Aux : Nat → Nat → Nat
  | 0, _ => 0
  | k + 1, n =>
    if 2 ^ (2 ^ k) ≤ n then 2 ^ k + ilog2Aux k (n / 2 ^ (2 ^ k)) else ilog2Aux k n

/-- Floor of the binary logarithm (0 at 0). -/
def ilog2 (n : Nat) : Nat := if n < 2 ^ 4096 then ilog2Aux 12 n else Nat.log2 n

/-- Round-to-nearest-even of the magnitude `n / d` (in units of `2^(-1074)`)
to binary64, with overflow to infinity. -/
def round (neg : Bool) (n d : Nat) : F64 :=
  let e := ilog2 (n / d) - 52
  let m := roundHalfEven n (d * 2 ^ e)
  let e' := if m = 2 ^ 53 then e + 1 else e
  let m' := if m = 2 ^ 53 then 2 ^ 52 else m
  if 2045 < e' then inf neg else fin neg m' e'

/-- Exact value of a finite datum as an integer multiple of `2^(-1074)`. -/
def units (s : Bool) (m e : Nat) : Int :=
  if s then -((m * 2 ^ e : Nat) : Int) else ((m * 2 ^ e : Nat) : Int)

def neg : F64 → F64
  | nan => nan
  | inf s => inf (!s)
  | fin s m e => fin (!s) m e

def fabs : F64 → F64
  | nan => nan
  | inf _ => inf false
  | fin _ m e => fin false m e

def mul : F64 → F64 → F64
  | nan, _ => nan
  | _, nan => nan
  | inf s, inf t => inf (xor s t)
  | inf s, fin t k _ => if k = 0 then nan else inf (xor s t)
  | fin s m _, inf t => if m = 0 then nan else inf (xor s t)
  | fin s m e, fin t k f => round (xor s t) (m * k * 2 ^ (e + f)) (2 ^ 1074)

def div : F64 → F64 → F64
  | nan, _ => nan
  | _, nan => nan
  | inf _, inf _ => nan
  | inf s, fin t _ _ => inf (xor s t)
  | fin s _ _, inf t => fin (xor s t) 0 0
  | fin s m e, fin t k f =>
    if k = 0 then (if m = 0 then nan else inf (xor s t))
    else round (xor s t) (m * 2 ^ (e + 1074)) (k * 2 ^ f)

def add : F64 → F64 → F64
  | nan, _ => nan
  | _, nan => nan
  | inf s, inf t => if s = t then inf s else nan
  | inf s, fin _ _ _ => inf s
  | fin _ _ _, inf t => inf t
  | fin s m e, fin t k f =>
    let z := units s m e + units t k f
    if z = 0 then fin (s && t) 0 0 else round (decide (z < 0)) z.natAbs 1

def sub (a b : F64) : F64 := add a (neg b)

def blt : F64 → F64 → Bool
  | nan, _ => false
  | _, nan => false
  | inf s, inf t => s && !t
  | inf s, fin _ _ _ => s
  | fin _ _ _, inf t => !t
  | fin s m e, fin t k f => decide (units s m e < units t k f)

def ble : F64 → F64 → Bool
  | nan, _ => false
  | _, nan => false
  | inf s, inf t => s || !t
  | inf s, fin _ _ _ => s
  | fin _ _ _, inf t => !t
  | fin s m e, fin t k f => decide (units s m e ≤ units t k f)

instance : Neg F64 := ⟨neg⟩
instance : Mul F64 := ⟨mul⟩
instance : Div F64 := ⟨div⟩
instance : Add F64 := ⟨add⟩
instance : Sub F64 := ⟨sub⟩
instance : LT F64 := ⟨fun a b => blt a b = true⟩
instance : LE F64 := ⟨fun a b => ble a b = true⟩
instance (a b : F64) : Decidable (a < b) := inferInstanceAs (Decidable (blt a b = true))
instance (a b : F64) : Decidable (a ≤ b) := inferInstanceAs (Decidable (ble a b = true))

/-- Decimal literal `mant * 10^(∓ exp)` converted to the nearest double. -/
def ofDecimal (mant : Nat) (expNeg : Bool) (exp : Nat) : F64 :=
  if expNeg then round false (mant * 2 ^ 1074) (10 ^ exp)
  else round false (mant * 10 ^ exp * 2 ^ 1074) 1

instance : OfScientific F64 := ⟨ofDecimal⟩
instance (n : Nat) : OfNat F64 n := ⟨ofDecimal n false 0⟩

/-- The C++ comparison `a == b` on doubles. -/
def eq754 (a b : F64) : Prop := a ≤ b ∧ b ≤ a

instance (a b : F64) : Decidable (eq754 a b) := inferInstanceAs (Decidable (_ ∧ _))

end F64

/-! ## Constants (source lines 7-13) -/

def R : F64 := 8.314
def Kw : F64 := 1e-14
def NA : F64 := 6.022e23
def CONC_MIN : F64 := 1e-12
def CONC_MAX : F64 := 1e2

/-- The C macro `INFINITY`, converted to `double`. -/
def INFINITY : F64 := F64.inf false

/-- The three `<cmath>` routines the formulas call.  Their results come from
the C library, not from this program, so they are taken as given. -/
structure Libm where
  log : F64 → F64
  log10 : F64 → F64
  pow : F64 → F64 → F64

/-! ## Formula library (source lines 40-73) -/

def calc_pH (lm : Libm) (H : F64) : F64 := -lm.log10 H

def calc_pOH (lm : Libm) (OH : F64) : F64 := -lm.log10 OH

def calc_H_from_pH (lm : Libm) (pH : F64) : F64 := lm.pow 10 (-pH)

def calc_equilibrium (products reactants : F64) : F64 :=
  if reactants ≤ 0 then INFINITY else products / reactants

def calc_Gibbs (lm : Libm) (K T : F64) : F64 := -R * T * lm.log K

def calc_Ka (H A HA : F64) : F64 :=
  if HA ≤ 0 then INFINITY else (H * A) / HA

def calc_Kb (BH OH B : F64) : F64 :=
  if B ≤ 0 then INFINITY else (BH * OH) / B

def calc_Kh_from_Ka (Ka : F64) : F64 := Kw / Ka

def calc_Kh_from_Kb (Kb : F64) : F64 := Kw / Kb

/-! ## Standard input and output -/

/-- One lexical item of standard input, as `cin >> value` and `cin.ignore`
meet it: `num s m e` is a maximal run of characters that converts to the
finite double `F64.fin s m e`; `bad` is a run at which the conversion to
`double` fails (such as `abc`); `sp` is a blank other than a newline; `nl`
is the newline character. -/
inductive Sym
  | num (neg : Bool) (m : Nat) (e : Nat)
  | bad
  | sp
  | nl
  deriving DecidableEq, Repr

/-- The item a finite double is typed as; the texts `inf` and `nan` do not
convert under `>>`. -/
def Sym.lit : F64 → Sym
  | F64.fin s m e => Sym.num s m e
  | _ => Sym.bad

/-- The state of `cin`: the unread input and the two state bits the program
can observe through `good()`. -/
structure IStream where
  buf : List Sym
  eofbit : Bool
  failbit : Bool
  deriving DecidableEq, Repr

/-- One `<<` insertion into `cout`: a piece of text or a `double`. -/
inductive Out
  | str (s : String)
  | dbl (x : F64)
  deriving DecidableEq, Repr

namespace IStream

/-- The call `cin.good()`: no state bit is set. -/
def good (s : IStream) : Bool := !s.eofbit && !s.failbit

/-- The call `cin.clear()`. -/
def clear (s : IStream) : IStream := { s with eofbit := false, failbit := false }

/-- Leading white space, newlines included, that `>>` skips. -/
def skipws : List Sym → List Sym
  | Sym.sp :: r => skipws r
  | Sym.nl :: r => skipws r
  | r => r

/-- The extraction `cin >> value` for a `double`; the first component is the
content of `value` afterwards.  Nothing is attempted on a stream that is not
`good()`; end of input while skipping white space sets `eofbit` and
`failbit`; a failed conversion sets `failbit` (the characters it leaves are
dropped by the `ignore` that always follows in this program); a number that
runs up to the end of the input sets `eofbit`. -/
def extract (s : IStream) (value : F64) : F64 × IStream :=
  if !s.good then (value, { s with failbit := true })
  else
    match skipws s.buf with
    | [] => (value, { buf := [], eofbit := true, failbit := true })
    | Sym.num neg m e :: r =>
      (F64.fin neg m e, { buf := r, eofbit := r.isEmpty, failbit := false })
    | r => (0, { buf := r, eofbit := false, failbit := true })

/-- Input up to and including the next newline removed; the flag tells that
the end of input came first. -/
def dropLine : List Sym → List Sym × Bool
  | [] => ([], true)
  | Sym.nl :: r => (r, false)
  | _ :: r => dropLine r

/-- The call `cin.ignore(numeric_limits<streamsize>::max(), '\n')`. -/
def ignore (s : IStream) : IStream :=
  if !s.good then { s with failbit := true }
  else { buf := (dropLine s.buf).1, eofbit := (dropLine s.buf).2, failbit := false }

end IStream

/-! ## The strict reader (source lines 16-37) -/

def msgNotNumber : Out := Out.str "Ошибка: нужно ввести ЧИСЛО. Повторите.\n"

def msgRange (minVal maxVal : F64) : List Out :=
  [Out.str "Ошибка: значение должно быть в диапазоне [", Out.dbl minVal,
   Out.str " ; ", Out.dbl maxVal, Out.str "]\n"]

/-- The loop of `read_double_strict`.  `fuel` bounds the number of
iterations (`none`: no return within that many), `value` is the local
variable of that name (indeterminate on entry), `cout` is the output so far.
The result is the returned value with the states of `cin` and `cout`. -/
def read_double_strict (prompt : String) (minVal maxVal : F64) :
    Nat → F64 → IStream → List Out → Option (F64 × IStream × List Out)
  | 0, _, _, _ => none
  | fuel + 1, value, cin, cout =>
    let cout := cout ++ [Out.str prompt]
    let (value, cin) := cin.extract value
    if !cin.good then
      let cout := cout ++ [msgNotNumber]
      let cin := cin.clear
      let cin := cin.ignore
      read_double_strict prompt minVal maxVal fuel value cin cout
    else if value < minVal ∨ value > maxVal then
      let cout := cout ++ msgRange minVal maxVal
      read_double_strict prompt minVal maxVal fuel value cin cout
    else
      some (value, cin, cout)

/-! ## Menu branches of `main` that the properties below are about -/

def msgKwWarning : Out :=
  Out.str "Предупреждение: [H+]*[OH-] не равно Kw — данные не соответствуют 25°C.\n"

/-- The relative error computed at source lines 163-164. -/
def kb_rel_err (OH : F64) : F64 :=
  let possible_H := Kw / OH
  F64.fabs (possible_H * OH - Kw) / Kw

/-- Menu item 2 (source lines 115-118). -/
def main_choice2 (lm : Libm) (fuel : Nat) (value : F64) (cin : IStream) (cout : List Out) :
    Option (IStream × List Out) :=
  match read_double_strict "[H+] (М): " CONC_MIN CONC_MAX fuel value cin cout with
  | none => none
  | some (H, cin, cout) => some (cin, cout ++ [Out.str "pH = ", Out.dbl (calc_pH lm H), Out.str "\n"])

/-- Menu item 8 (source lines 156-170). -/
def main_choice8 (fuel : Nat) (value : F64) (cin : IStream) (cout : List Out) :
    Option (IStream × List Out) :=
  let cout := cout ++ [Out.str "Введите РАВНОВЕСНЫЕ концентрации!\n"]
  match read_double_strict "[BH+]: " CONC_MIN CONC_MAX fuel value cin cout with
  | none => none
  | some (BH, cin, cout) =>
    match read_double_strict "[OH-]: " CONC_MIN CONC_MAX fuel value cin cout with
    | none => none
    | some (OH, cin, cout) =>
      match read_double_strict "[B]: " CONC_MIN CONC_MAX fuel value cin cout with
      | none => none
      | some (B, cin, cout) =>
        let rel_err := kb_rel_err OH
        let cout := if rel_err > 1e-3 then cout ++ [msgKwWarning] else cout
        some (cin, cout ++ [Out.str "Kb = ", Out.dbl (calc_Kb BH OH B), Out.str "\n"])


/-! ## Specification-side notions for the reader -/

/-- Every number the input holds, in order. -/
def values : List Sym → List F64
  | [] => []
  | Sym.num s m e :: r => F64.fin s m e :: values r
  | _ :: r => values r

/-- The numbers the reader gets to convert: with `skipping` set, input up to
the next newline is passed over (the rest of a line on which a conversion
failed). -/
def visibleAux : Bool → List Sym → List F64
  | _, [] => []
  | true, Sym.nl :: r => visibleAux false r
  | true, _ :: r => visibleAux true r
  | false, Sym.num s m e :: r => F64.fin s m e :: visibleAux false r
  | false, Sym.bad :: r => visibleAux true r
  | false, _ :: r => visibleAux false r

/-- The numbers a reader that starts on stream `cin` gets to convert. -/
def visible (cin : IStream) : List F64 := visibleAux (!cin.good) cin.buf

/-- The acceptance test `min <= value <= max`. -/
def inRange (minVal maxVal x : F64) : Bool := decide (minVal ≤ x ∧ x ≤ maxVal)

/-- Blank items: `sp` and `nl`. -/
def Sym.isBlank : Sym → Bool
  | Sym.sp => true
  | Sym.nl => true
  | _ => false

/-! ## Order facts on doubles -/

theorem F64.lt_iff (a b : F64) : a < b ↔ F64.blt a b = true := Iff.rfl

theorem F64.le_iff (a b : F64) : a ≤ b ↔ F64.ble a b = true := Iff.rfl

theorem F64.not_nan_le (b : F64) : ¬ F64.nan ≤ b := by
  simp [F64.le_iff, F64.ble]

theorem F64.not_le_nan (a : F64) : ¬ a ≤ F64.nan := by
  cases a <;> simp [F64.le_iff, F64.ble]

/-- For a finite `x` and a bound that is a number, `!(x < b)` is `b <= x`. -/
theorem F64.not_fin_lt_iff (s : Bool) (m e : Nat) (b : F64) (hb : b ≠ F64.nan) :
    ¬ F64.fin s m e < b ↔ b ≤ F64.fin s m e := by
  cases b with
  | nan => exact absurd rfl hb
  | inf t => cases t <;> simp [F64.lt_iff, F64.le_iff, F64.blt, F64.ble]
  | fin t k f => simp [F64.lt_iff, F64.le_iff, F64.blt, F64.ble]

/-- For a finite `x` and a bound that is a number, `!(x > b)` is `x <= b`. -/
theorem F64.not_fin_gt_iff (s : Bool) (m e : Nat) (b : F64) (hb : b ≠ F64.nan) :
    ¬ F64.fin s m e > b ↔ F64.fin s m e ≤ b := by
  cases b with
  | nan => exact absurd rfl hb
  | inf t => cases t <;> simp [GT.gt, F64.lt_iff, F64.le_iff, F64.blt, F64.ble]
  | fin t k f => simp [GT.gt, F64.lt_iff, F64.le_iff, F64.blt, F64.ble]

theorem F64.accept_iff (s : Bool) (m e : Nat) (lo hi : F64) (h : lo ≤ hi) :
    ¬ (F64.fin s m e < lo ∨ F64.fin s m e > hi) ↔ lo ≤ F64.fin s m e ∧ F64.fin s m e ≤ hi := by
  have hlo : lo ≠ F64.nan := fun hn => F64.not_nan_le hi (hn ▸ h)
  have hhi : hi ≠ F64.nan := fun hn => F64.not_le_nan lo (hn ▸ h)
  rw [not_or, F64.not_fin_lt_iff s m e lo hlo, F64.not_fin_gt_iff s m e hi hhi]

theorem F64.accept_of_le (s : Bool) (m e : Nat) (lo hi : F64) (h1 : lo ≤ F64.fin s m e)
    (h2 : F64.fin s m e ≤ hi) : ¬ (F64.fin s m e < lo ∨ F64.fin s m e > hi) := by
  have hlo : lo ≠ F64.nan := fun hn => F64.not_nan_le _ (hn ▸ h1)
  have hhi : hi ≠ F64.nan := fun hn => F64.not_le_nan _ (hn ▸ h2)
  rw [not_or, F64.not_fin_lt_iff s m e lo hlo, F64.not_fin_gt_iff s m e hi hhi]
  exact ⟨h1, h2⟩

/-! ## Rounding: the computed double against the exact quotient -/

namespace F64

theorem ilog2Aux_zero (k : Nat) : ilog2Aux k 0 = 0 := by
  induction k with
  | zero => rfl
  | succ k ih => simp [ilog2Aux, ih]

theorem two_pow_ilog2Aux_le (k : Nat) : ∀ n : Nat, n ≠ 0 → 2 ^ ilog2Aux k n ≤ n := by
  induction k with
  | zero => intro n hn; simpa [ilog2Aux] using Nat.pos_of_ne_zero hn
  | succ k ih =>
    intro n hn
    unfold ilog2Aux
    split
    · rename_i h
      have hq : n / 2 ^ 2 ^ k ≠ 0 := by
        have : 0 < n / 2 ^ 2 ^ k := Nat.div_pos h (by positivity)
        omega
      calc 2 ^ (2 ^ k + ilog2Aux k (n / 2 ^ 2 ^ k))
          = 2 ^ 2 ^ k * 2 ^ ilog2Aux k (n / 2 ^ 2 ^ k) := by rw [pow_add]
        _ ≤ 2 ^ 2 ^ k * (n / 2 ^ 2 ^ k) := Nat.mul_le_mul_left _ (ih _ hq)
        _ ≤ n := Nat.mul_div_le n _
    · exact ih n hn

theorem two_pow_ilog2_le (n : Nat) (hn : n ≠ 0) : 2 ^ ilog2 n ≤ n := by
  unfold ilog2
  split
  · exact two_pow_ilog2Aux_le 12 n hn
  · exact Nat.log2_self_le hn

theorem ilog2_zero : ilog2 0 = 0 := by
  simp [ilog2, ilog2Aux_zero]

theorem ilog2_lt (n j : Nat) (hj : 0 < j) (h : n < 2 ^ j) : ilog2 n < j := by
  by_cases hn : n = 0
  · subst hn; rw [ilog2_zero]; exact hj
  · have h1 := two_pow_ilog2_le n hn
    have h2 : 2 ^ ilog2 n < 2 ^ j := lt_of_le_of_lt h1 h
    exact (Nat.pow_lt_pow_iff_right (by norm_num)).mp h2

theorem roundHalfEven_bounds (n D : Nat) (hD : 0 < D) :
    2 * (roundHalfEven n D * D) ≤ 2 * n + D ∧ 2 * n ≤ 2 * (roundHalfEven n D * D) + D := by
  have h1 : D * (n / D) + n % D = n := Nat.div_add_mod n D
  have h2 : n % D < D := Nat.mod_lt n hD
  have h3 : (n / D + 1) * D = D * (n / D) + D := by ring
  have h4 : n / D * D = D * (n / D) := by ring
  unfold roundHalfEven
  simp only
  split
  · rw [h4]; omega
  · split
    · rw [h3]; omega
    · split
      · rw [h4]; omega
      · rw [h3]; omega

/-- Rounding does not overflow below `2^2097` units, and the result carries the
rounded significand at the chosen exponent. -/
theorem round_eq_fin (s : Bool) (n d : Nat) (h : n / d < 2 ^ 2097) :
    ∃ m e, round s n d = fin s m e ∧
      m * 2 ^ e = roundHalfEven n (d * 2 ^ (ilog2 (n / d) - 52)) * 2 ^ (ilog2 (n / d) - 52) := by
  have hE : ilog2 (n / d) < 2097 := ilog2_lt _ _ (by norm_num) h
  unfold round
  simp only
  by_cases hm : roundHalfEven n (d * 2 ^ (ilog2 (n / d) - 52)) = 2 ^ 53
  · rw [if_pos hm, if_pos hm, if_neg (by omega)]
    refine ⟨_, _, rfl, ?_⟩
    rw [hm, pow_succ]; ring
  · rw [if_neg hm, if_neg hm, if_neg (by omega)]
    exact ⟨_, _, rfl, rfl⟩

/-- The rounded magnitude is at most twice the exact one. -/
theorem round_le_twice (s : Bool) (n d : Nat) (hd : 0 < d) (h : n < 2 ^ 2097 * d) :
    ∃ m e, round s n d = fin s m e ∧ m * 2 ^ e * d ≤ 2 * n := by
  have hq : n / d < 2 ^ 2097 := (Nat.div_lt_iff_lt_mul hd).mpr h
  obtain ⟨m, e, hr, hv⟩ := round_eq_fin s n d hq
  refine ⟨m, e, hr, ?_⟩
  rw [hv]
  set E := ilog2 (n / d) - 52
  have hD : 0 < d * 2 ^ E := by positivity
  obtain ⟨hb, -⟩ := roundHalfEven_bounds n (d * 2 ^ E) hD
  set m0 := roundHalfEven n (d * 2 ^ E)
  have he : m0 * 2 ^ E * d = m0 * (d * 2 ^ E) := by ring
  rw [he]
  rcases Nat.eq_zero_or_pos m0 with h0 | h0
  · rw [h0]; simp
  · have : d * 2 ^ E ≤ m0 * (d * 2 ^ E) := Nat.le_mul_of_pos_left _ h0
    omega

/-- In the normal range the rounded magnitude is within `2^(-53)` of the exact
one, relatively. -/
theorem round_rel (s : Bool) (n d : Nat) (hd : 0 < d) (hlo : 2 ^ 52 * d ≤ n)
    (h : n < 2 ^ 2097 * d) :
    ∃ m e, round s n d = fin s m e ∧
      2 ^ 53 * (m * 2 ^ e * d) ≤ (2 ^ 53 + 1) * n ∧
      (2 ^ 53 - 1) * n ≤ 2 ^ 53 * (m * 2 ^ e * d) := by
  have hq : n / d < 2 ^ 2097 := (Nat.div_lt_iff_lt_mul hd).mpr h
  have hq52 : 2 ^ 52 ≤ n / d := (Nat.le_div_iff_mul_le hd).mpr hlo
  obtain ⟨m, e, hr, hv⟩ := round_eq_fin s n d hq
  refine ⟨m, e, hr, ?_⟩
  rw [hv]
  set E := ilog2 (n / d) - 52
  have hD : 0 < d * 2 ^ E := by positivity
  obtain ⟨hb1, hb2⟩ := roundHalfEven_bounds n (d * 2 ^ E) hD
  set m0 := roundHalfEven n (d * 2 ^ E)
  have he : m0 * 2 ^ E * d = m0 * (d * 2 ^ E) := by ring
  rw [he]
  -- the spacing is small against the magnitude: 2^52 * (d * 2^E) ≤ n
  have hgrid : 2 ^ 52 * (d * 2 ^ E) ≤ n := by
    have hE : 2 ^ (E + 52) ≤ n / d := by
      by_cases hc : ilog2 (n / d) ≤ 52
      · have : E = 0 := by omega
        rw [this]; simpa using hq52
      · have : E + 52 = ilog2 (n / d) := by omega
        rw [this]
        exact two_pow_ilog2_le _ (by omega)
    calc 2 ^ 52 * (d * 2 ^ E) = 2 ^ (E + 52) * d := by rw [pow_add]; ring
      _ ≤ n / d * d := Nat.mul_le_mul_right _ hE
      _ ≤ n := Nat.div_mul_le_self n d
  set D := d * 2 ^ E
  set x := m0 * D
  constructor
  · have : (2 ^ 53 + 1) * n = 2 ^ 53 * n + n := by ring
    omega
  · have h53 : (2 ^ 53 - 1 : Nat) = 9007199254740991 := by norm_num
    rw [h53]
    omega

theorem lt_two_pow_ilog2Aux (k : Nat) :
    ∀ n : Nat, n < 2 ^ 2 ^ k → n < 2 ^ (ilog2Aux k n + 1) := by
  induction k with
  | zero => intro n hn; simpa [ilog2Aux] using hn
  | succ k ih =>
    intro n hn
    unfold ilog2Aux
    have hsq : 2 ^ 2 ^ (k + 1) = 2 ^ 2 ^ k * 2 ^ 2 ^ k := by
      rw [pow_succ, pow_mul, pow_two]
    split
    · have hpos : 0 < 2 ^ 2 ^ k := by positivity
      have hq : n / 2 ^ 2 ^ k < 2 ^ 2 ^ k := by
        apply (Nat.div_lt_iff_lt_mul hpos).mpr
        rw [← hsq]; exact hn
      have h1 := ih _ hq
      have h2 : n < (n / 2 ^ 2 ^ k + 1) * 2 ^ 2 ^ k := by
        have := Nat.lt_succ_iff.mpr (le_refl (n / 2 ^ 2 ^ k))
        exact (Nat.div_lt_iff_lt_mul hpos).mp this
      calc n < (n / 2 ^ 2 ^ k + 1) * 2 ^ 2 ^ k := h2
        _ ≤ 2 ^ (ilog2Aux k (n / 2 ^ 2 ^ k) + 1) * 2 ^ 2 ^ k :=
            Nat.mul_le_mul_right _ h1
        _ = 2 ^ (2 ^ k + ilog2Aux k (n / 2 ^ 2 ^ k) + 1) := by
            rw [← pow_add]; congr 1; ring
    · rename_i h
      exact ih n (by omega)

theorem lt_two_pow_ilog2 (n : Nat) : n < 2 ^ (ilog2 n + 1) := by
  unfold ilog2
  split
  · rename_i h
    exact lt_two_pow_ilog2Aux 12 n (by simpa using h)
  · exact Nat.lt_log2_self

theorem roundHalfEven_le (n D B : Nat) (hD : 0 < D) (h : n < B * D) :
    roundHalfEven n D ≤ B := by
  have hq : n / D < B := (Nat.div_lt_iff_lt_mul hD).mpr h
  unfold roundHalfEven
  simp only
  split
  · omega
  · split
    · omega
    · split <;> omega

theorem le_roundHalfEven (n D B : Nat) (hD : 0 < D) (h : B * D ≤ n) :
    B ≤ roundHalfEven n D := by
  have hq : B ≤ n / D := (Nat.le_div_iff_mul_le hD).mpr h
  unfold roundHalfEven
  simp only
  split
  · omega
  · split
    · omega
    · split <;> omega

/-- Every finite result of rounding is a canonical double: at most 53
significant bits, exponent within range, and a full significand unless the
exponent is the least one. -/
theorem round_canonical (s : Bool) (n d : Nat) (hd : 0 < d) (t : Bool) (m e : Nat)
    (h : round s n d = fin t m e) :
    t = s ∧ m < 2 ^ 53 ∧ e ≤ 2045 ∧ (2 ^ 52 ≤ m ∨ e = 0) := by
  unfold round at h
  simp only at h
  set E := ilog2 (n / d) - 52 with hE
  have hD : 0 < d * 2 ^ E := by positivity
  -- the significand before renormalisation is at most 2^53
  have hup : roundHalfEven n (d * 2 ^ E) ≤ 2 ^ 53 := by
    apply roundHalfEven_le n (d * 2 ^ E) (2 ^ 53) hD
    have h1 : n / d < 2 ^ (ilog2 (n / d) + 1) := lt_two_pow_ilog2 _
    have h2 : 2 ^ (ilog2 (n / d) + 1) ≤ 2 ^ (53 + E) :=
      Nat.pow_le_pow_right (by norm_num) (by omega)
    have h3 : n < 2 ^ (53 + E) * d :=
      (Nat.div_lt_iff_lt_mul hd).mp (lt_of_lt_of_le h1 h2)
    calc n < 2 ^ (53 + E) * d := h3
      _ = 2 ^ 53 * (d * 2 ^ E) := by rw [pow_add]; ring
  -- and at least 2^52 above the least exponent
  have hlow : E ≠ 0 → 2 ^ 52 ≤ roundHalfEven n (d * 2 ^ E) := by
    intro hE0
    apply le_roundHalfEven n (d * 2 ^ E) (2 ^ 52) hD
    have hL : E + 52 = ilog2 (n / d) := by omega
    have hne : n / d ≠ 0 := by
      intro h0
      rw [h0, ilog2_zero] at hL
      omega
    have h1 : 2 ^ (E + 52) ≤ n / d := by rw [hL]; exact two_pow_ilog2_le _ hne
    calc 2 ^ 52 * (d * 2 ^ E) = 2 ^ (E + 52) * d := by rw [pow_add]; ring
      _ ≤ n / d * d := Nat.mul_le_mul_right _ h1
      _ ≤ n := Nat.div_mul_le_self n d
  by_cases hm : roundHalfEven n (d * 2 ^ E) = 2 ^ 53
  · rw [if_pos hm, if_pos hm] at h
    split at h
    · exact absurd h (by simp)
    · rename_i hov
      simp only [fin.injEq] at h
      obtain ⟨h1, h2, h3⟩ := h
      refine ⟨h1.symm, ?_, by omega, Or.inl ?_⟩
      · rw [← h2]; norm_num
      · rw [← h2]
  · rw [if_neg hm, if_neg hm] at h
    split at h
    · exact absurd h (by simp)
    · rename_i hov
      simp only [fin.injEq] at h
      obtain ⟨h1, h2, h3⟩ := h
      refine ⟨h1.symm, ?_, by omega, ?_⟩
      · rw [← h2]; omega
      · by_cases hE0 : E = 0
        · right; omega
        · left; rw [← h2]; exact hlow hE0

theorem div_fin_fin (s t : Bool) (m e k f : Nat) (hk : k ≠ 0) :
    (fin s m e) / (fin t k f) = round (xor s t) (m * 2 ^ (e + 1074)) (k * 2 ^ f) := by
  show F64.div _ _ = _
  simp [F64.div, hk]

theorem mul_fin_fin (s t : Bool) (m e k f : Nat) :
    (fin s m e) * (fin t k f) = round (xor s t) (m * k * 2 ^ (e + f)) (2 ^ 1074) := rfl

/-- Subtracting a positive finite number from a positive finite number gives a
finite number of magnitude at most twice the exact difference. -/
theorem sub_fin_fin_le (m e k f : Nat) (h1 : m * 2 ^ e < 2 ^ 2097) (h2 : k * 2 ^ f < 2 ^ 2097) :
    ∃ s a b, (fin false m e) - (fin false k f) = fin s a b ∧
      ((a * 2 ^ b : Nat) : Int) ≤ 2 * |((m * 2 ^ e : Nat) : Int) - ((k * 2 ^ f : Nat) : Int)| := by
  show ∃ s a b, F64.add (fin false m e) (F64.neg (fin false k f)) = fin s a b ∧ _
  simp only [F64.neg, F64.add, units, Bool.not_false, if_true, Bool.false_and]
  simp only [Bool.false_eq_true, if_false]
  by_cases hz : ((m * 2 ^ e : Nat) : Int) + -((k * 2 ^ f : Nat) : Int) = 0
  · rw [if_pos hz]
    exact ⟨false, 0, 0, rfl, by simp⟩
  · rw [if_neg hz]
    set z : Int := ((m * 2 ^ e : Nat) : Int) + -((k * 2 ^ f : Nat) : Int) with hzdef
    have hlt : z.natAbs < 2 ^ 2097 * 1 := by omega
    obtain ⟨a, b, hr, hle⟩ := round_le_twice (decide (z < 0)) z.natAbs 1 (by norm_num) hlt
    refine ⟨_, a, b, hr, ?_⟩
    have : ((m * 2 ^ e : Nat) : Int) - ((k * 2 ^ f : Nat) : Int) = z := by rw [hzdef]; ring
    rw [this]
    have h3 : ((a * 2 ^ b : Nat) : Int) ≤ 2 * (z.natAbs : Int) := by
      have : a * 2 ^ b ≤ 2 * z.natAbs := by simpa using hle
      exact_mod_cast this
    rwa [Int.natCast_natAbs] at h3

/-- Error analysis of `fabs((K / X) * X - K) / K` for positive finite `K`, `X`
in the normal range: the result is finite and below any threshold `T` of at
least `2^(-48)`. -/
theorem relerr_chain (Km Ke m e tm te : Nat)
    (hX : 0 < m * 2 ^ e)
    (hK54 : 2 ^ 54 ≤ Km * 2 ^ Ke)
    (hKhi : Km * 2 ^ Ke < 2 ^ 2000)
    (hlo : 2 ^ 52 * (m * 2 ^ e) ≤ Km * 2 ^ Ke * 2 ^ 1074)
    (hhi : Km * 2 ^ Ke * 2 ^ 1074 < 2 ^ 2097 * (m * 2 ^ e))
    (hT : 4 * (2 ^ 54 + 1) * 2 ^ 1074 < 2 ^ 106 * (tm * 2 ^ te)) :
    ∃ em ee,
      fabs ((fin false Km Ke / fin false m e) * fin false m e - fin false Km Ke) / fin false Km Ke
        = fin false em ee ∧ em * 2 ^ ee < tm * 2 ^ te := by
  have hm0 : m ≠ 0 := by rintro rfl; simp at hX
  have hKm0 : Km ≠ 0 := by rintro rfl; simp at hK54
  -- H = K / X
  have hn1 : Km * 2 ^ (Ke + 1074) = Km * 2 ^ Ke * 2 ^ 1074 := by rw [pow_add]; ring
  obtain ⟨hm, he, hH, h1a, h1b⟩ :=
    round_rel false (Km * 2 ^ (Ke + 1074)) (m * 2 ^ e) hX (by rw [hn1]; exact hlo)
      (by rw [hn1]; exact hhi)
  rw [div_fin_fin false false Km Ke m e hm0]
  simp only [Bool.xor_false] at *
  rw [hH, mul_fin_fin]
  simp only [Bool.xor_false]
  rw [hn1] at h1a h1b
  -- P = H * X
  have hn2 : hm * m * 2 ^ (he + e) = hm * 2 ^ he * (m * 2 ^ e) := by rw [pow_add]; ring
  set K := Km * 2 ^ Ke with hK
  set X := m * 2 ^ e with hXd
  set h := hm * 2 ^ he with hh
  set hX2 := h * X with hhX
  have h53 : (2 ^ 53 - 1 : Nat) = 9007199254740991 := by norm_num
  rw [h53] at h1b
  have hc : (2 : Nat) ^ 1074 > 0 := by positivity
  obtain ⟨pm, pe, hP, h2a, h2b⟩ :=
    round_rel false (hm * m * 2 ^ (he + e)) (2 ^ 1074) hc
      (by rw [hn2]; omega) (by rw [hn2]; omega)
  rw [hP]
  rw [hn2] at h2a h2b
  rw [h53] at h2b
  set p := pm * 2 ^ pe with hp
  -- 2^106 * p is within (2^53 ± 1)^2 * K
  have h3a : 2 ^ 106 * p ≤ (2 ^ 53 + 1) * (2 ^ 53 + 1) * K := by
    have : 2 ^ 106 * (p * 2 ^ 1074) ≤ (2 ^ 53 + 1) * (2 ^ 53 + 1) * (K * 2 ^ 1074) := by omega
    have h' : 2 ^ 106 * p * 2 ^ 1074 ≤ (2 ^ 53 + 1) * (2 ^ 53 + 1) * K * 2 ^ 1074 := by
      calc 2 ^ 106 * p * 2 ^ 1074 = 2 ^ 106 * (p * 2 ^ 1074) := by ring
        _ ≤ (2 ^ 53 + 1) * (2 ^ 53 + 1) * (K * 2 ^ 1074) := this
        _ = (2 ^ 53 + 1) * (2 ^ 53 + 1) * K * 2 ^ 1074 := by ring
    exact Nat.le_of_mul_le_mul_right h' hc
  have h3b : 9007199254740991 * 9007199254740991 * K ≤ 2 ^ 106 * p := by
    have : 9007199254740991 * 9007199254740991 * (K * 2 ^ 1074) ≤ 2 ^ 106 * (p * 2 ^ 1074) := by
      omega
    have h' : 9007199254740991 * 9007199254740991 * K * 2 ^ 1074 ≤ 2 ^ 106 * p * 2 ^ 1074 := by
      calc 9007199254740991 * 9007199254740991 * K * 2 ^ 1074
          = 9007199254740991 * 9007199254740991 * (K * 2 ^ 1074) := by ring
        _ ≤ 2 ^ 106 * (p * 2 ^ 1074) := this
        _ = 2 ^ 106 * p * 2 ^ 1074 := by ring
    exact Nat.le_of_mul_le_mul_right h' hc
  -- D = P - K
  obtain ⟨sd, dm, de, hD, hDle⟩ := sub_fin_fin_le pm pe Km Ke (by omega) (by omega)
  rw [hD]
  simp only [fabs]
  rw [div_fin_fin false false dm de Km Ke hKm0]
  simp only [Bool.xor_false]
  have hn4 : dm * 2 ^ (de + 1074) = dm * 2 ^ de * 2 ^ 1074 := by rw [pow_add]; ring
  rw [hn4]
  set a := dm * 2 ^ de with ha
  rw [← hp, ← hK] at hDle
  have ha2 : 2 ^ 106 * a ≤ 2 * (2 ^ 54 + 1) * K := by
    have : (2 ^ 106 * a : Int) ≤ 2 * (2 ^ 54 + 1) * K := by
      have h3a' : (2 ^ 106 * p : Int) ≤ (2 ^ 53 + 1) * (2 ^ 53 + 1) * K := by exact_mod_cast h3a
      have h3b' : (9007199254740991 * 9007199254740991 * K : Int) ≤ 2 ^ 106 * p := by
        exact_mod_cast h3b
      rcases abs_cases ((p : Int) - (K : Int)) with ⟨habs, -⟩ | ⟨habs, -⟩
      · rw [habs] at hDle; omega
      · rw [habs] at hDle; omega
    exact_mod_cast this
  have hK0 : 0 < K := by omega
  obtain ⟨em, ee, hE, hEle⟩ :=
    round_le_twice false (a * 2 ^ 1074) K hK0 (by
      have : a * 2 ^ 1074 < 2 ^ 2097 * K := by
        have h1 : 2 ^ 106 * (a * 2 ^ 1074) ≤ 2 * (2 ^ 54 + 1) * K * 2 ^ 1074 := by
          calc 2 ^ 106 * (a * 2 ^ 1074) = 2 ^ 106 * a * 2 ^ 1074 := by ring
            _ ≤ 2 * (2 ^ 54 + 1) * K * 2 ^ 1074 := Nat.mul_le_mul_right _ ha2
        omega
      exact this)
  refine ⟨em, ee, hE, ?_⟩
  set E := em * 2 ^ ee with hEd
  -- 2^106 * E * K ≤ 4 * (2^54 + 1) * 2^1074 * K
  have h5 : 2 ^ 106 * E * K ≤ 4 * (2 ^ 54 + 1) * 2 ^ 1074 * K := by
    calc 2 ^ 106 * E * K = 2 ^ 106 * (E * K) := by ring
      _ ≤ 2 ^ 106 * (2 * (a * 2 ^ 1074)) := Nat.mul_le_mul_left _ hEle
      _ = 2 * 2 ^ 1074 * (2 ^ 106 * a) := by ring
      _ ≤ 2 * 2 ^ 1074 * (2 * (2 ^ 54 + 1) * K) := Nat.mul_le_mul_left _ ha2
      _ = 4 * (2 ^ 54 + 1) * 2 ^ 1074 * K := by ring
  have h6 : 2 ^ 106 * E ≤ 4 * (2 ^ 54 + 1) * 2 ^ 1074 := Nat.le_of_mul_le_mul_right h5 hK0
  have h7 : 2 ^ 106 * E < 2 ^ 106 * (tm * 2 ^ te) := lt_of_le_of_lt h6 hT
  exact Nat.lt_of_mul_lt_mul_left h7

end F64

theorem F64.round_zero (s : Bool) (d : Nat) : F64.round s 0 d = F64.fin s 0 0 := by
  simp [F64.round, F64.roundHalfEven, F64.ilog2_zero]

/-! ## The constants as doubles, and the two numeric lemmas the claims rest on -/

theorem Kw_eq : Kw = F64.fin false 6338253001141147 975 := by decide

theorem CONC_MIN_eq : CONC_MIN = F64.fin false 4951760157141521 982 := by decide

theorem CONC_MAX_eq : CONC_MAX = F64.fin false 7036874417766400 1028 := by decide

theorem milli_eq : (1e-3 : F64) = F64.fin false 4611686018427388 1012 := by decide

theorem R_eq : R = F64.fin false 4680365912744788 1025 := by decide

theorem zero_eq : (0 : F64) = F64.fin false 0 0 := by decide

theorem T_max_eq : (5e306 : F64) = F64.fin false 8016673440035891 2040 := by decide

/-- A double within the concentration bounds is a positive finite number whose
magnitude lies between those of the bounds. -/
theorem conc_bounds (OH : F64) (h1 : CONC_MIN ≤ OH) (h2 : OH ≤ CONC_MAX) :
    ∃ m e, OH = F64.fin false m e ∧ 4951760157141521 * 2 ^ 982 ≤ m * 2 ^ e ∧
      m * 2 ^ e ≤ 7036874417766400 * 2 ^ 1028 := by
  rw [CONC_MIN_eq] at h1
  rw [CONC_MAX_eq] at h2
  cases OH with
  | nan => exact absurd h1 (F64.not_le_nan _)
  | inf s =>
    cases s
    · simp [F64.le_iff, F64.ble] at h2
    · simp [F64.le_iff, F64.ble] at h1
  | fin s m e =>
    cases s
    · refine ⟨m, e, rfl, ?_, ?_⟩
      · have := h1
        simp only [F64.le_iff, F64.ble, F64.units, decide_eq_true_eq] at this
        simp only [Bool.false_eq_true, if_false] at this
        exact_mod_cast this
      · have := h2
        simp only [F64.le_iff, F64.ble, F64.units, decide_eq_true_eq] at this
        simp only [Bool.false_eq_true, if_false] at this
        exact_mod_cast this
    · exfalso
      have := h1
      simp only [F64.le_iff, F64.ble, F64.units, decide_eq_true_eq] at this
      simp only [Bool.false_eq_true, if_false, if_true] at this
      have hp : (0 : Int) < ((4951760157141521 * 2 ^ 982 : Nat) : Int) := by positivity
      have hn : -(((m * 2 ^ e : Nat)) : Int) ≤ 0 := by
        have : (0 : Int) ≤ ((m * 2 ^ e : Nat) : Int) := Int.natCast_nonneg _
        omega
      omega

/-- The relative error of the consistency check is a finite double below `1e-3`
for every concentration within the bounds. -/
theorem kb_rel_err_small (OH : F64) (h1 : CONC_MIN ≤ OH) (h2 : OH ≤ CONC_MAX) :
    ∃ em ee, kb_rel_err OH = F64.fin false em ee ∧
      em * 2 ^ ee < 4611686018427388 * 2 ^ 1012 := by
  obtain ⟨m, e, rfl, hlo, hhi⟩ := conc_bounds OH h1 h2
  unfold kb_rel_err
  simp only
  rw [Kw_eq]
  have hX : 0 < m * 2 ^ e := lt_of_lt_of_le (by positivity) hlo
  exact F64.relerr_chain 6338253001141147 975 m e 4611686018427388 1012 hX
    (by norm_num) (by norm_num)
    (by
      calc 2 ^ 52 * (m * 2 ^ e) ≤ 2 ^ 52 * (7036874417766400 * 2 ^ 1028) :=
            Nat.mul_le_mul_left _ hhi
        _ ≤ 6338253001141147 * 2 ^ 975 * 2 ^ 1074 := by norm_num)
    (by
      calc 6338253001141147 * 2 ^ 975 * 2 ^ 1074
          < 2 ^ 2097 * (4951760157141521 * 2 ^ 982) := by norm_num
        _ ≤ 2 ^ 2097 * (m * 2 ^ e) := Nat.mul_le_mul_left _ hlo)
    (by norm_num)

theorem kb_no_warning (OH : F64) (h1 : CONC_MIN ≤ OH) (h2 : OH ≤ CONC_MAX) :
    ¬ kb_rel_err OH > 1e-3 ∧ kb_rel_err OH ≤ 1e-3 := by
  obtain ⟨em, ee, hE, hlt⟩ := kb_rel_err_small OH h1 h2
  rw [hE, milli_eq]
  constructor
  · simp only [GT.gt, F64.lt_iff, F64.blt, F64.units, decide_eq_true_eq]
    simp only [Bool.false_eq_true, if_false]
    intro h
    have : 4611686018427388 * 2 ^ 1012 < em * 2 ^ ee := by exact_mod_cast h
    omega
  · simp only [F64.le_iff, F64.ble, F64.units, decide_eq_true_eq]
    simp only [Bool.false_eq_true, if_false]
    have : em * 2 ^ ee ≤ 4611686018427388 * 2 ^ 1012 := le_of_lt hlt
    exact_mod_cast this

/-- With `log(1) = +0`, the Gibbs formula at `K = 1` gives negative zero as long
as `R * T` stays finite. -/
theorem gibbs_at_one (lm : Libm) (T : F64) (hlog : lm.log 1.0 = 0) (h0 : 0 < T)
    (hT : T ≤ 5e306) : calc_Gibbs lm 1.0 T = F64.fin true 0 0 := by
  rw [zero_eq] at h0
  rw [T_max_eq] at hT
  unfold calc_Gibbs
  rw [hlog, zero_eq, R_eq]
  cases T with
  | nan => exact absurd hT (F64.not_nan_le _)
  | inf s =>
    cases s
    · simp [F64.le_iff, F64.ble] at hT
    · simp [F64.lt_iff, F64.blt] at h0
  | fin s m e =>
    have hs : s = false := by
      cases s
      · rfl
      · exfalso
        simp only [F64.lt_iff, F64.blt, F64.units, decide_eq_true_eq] at h0
        simp only [Bool.false_eq_true, if_false, if_true] at h0
        have h1 : (0 : Int) ≤ ((m * 2 ^ e : Nat) : Int) := Int.natCast_nonneg _
        have h2 : (0 : Int) ≤ ((0 * 2 ^ 0 : Nat) : Int) := Int.natCast_nonneg _
        linarith
    subst hs
    have hm : m * 2 ^ e ≤ 8016673440035891 * 2 ^ 2040 := by
      simp only [F64.le_iff, F64.ble, F64.units, decide_eq_true_eq] at hT
      simp only [Bool.false_eq_true, if_false] at hT
      exact_mod_cast hT
    show F64.mul (F64.mul (F64.neg (F64.fin false 4680365912744788 1025)) (F64.fin false m e))
      (F64.fin false 0 0) = F64.fin true 0 0
    simp only [F64.neg, F64.mul, Bool.not_false, Bool.xor_false]
    have hq : 4680365912744788 * m * 2 ^ (1025 + e) / 2 ^ 1074 < 2 ^ 2097 := by
      apply (Nat.div_lt_iff_lt_mul (by positivity)).mpr
      calc 4680365912744788 * m * 2 ^ (1025 + e)
          = 4680365912744788 * 2 ^ 1025 * (m * 2 ^ e) := by rw [pow_add]; ring
        _ ≤ 4680365912744788 * 2 ^ 1025 * (8016673440035891 * 2 ^ 2040) :=
            Nat.mul_le_mul_left _ hm
        _ < 2 ^ 2097 * 2 ^ 1074 := by norm_num
    obtain ⟨a, b, hr, -⟩ := F64.round_eq_fin true (4680365912744788 * m * 2 ^ (1025 + e))
      (2 ^ 1074) hq
    rw [hr]
    simp only [F64.mul, Bool.xor_false, Nat.mul_zero, Nat.zero_mul]
    exact F64.round_zero true _

/-! ## The reader, one iteration at a time -/

open IStream

theorem visibleAux_skipws (b : List Sym) :
    visibleAux false (skipws b) = visibleAux false b := by
  induction b with
  | nil => rfl
  | cons x r ih => cases x <;> simp [skipws, visibleAux, ih]

theorem visibleAux_dropLine (b : List Sym) :
    visibleAux false (dropLine b).1 = visibleAux true b := by
  induction b with
  | nil => rfl
  | cons x r ih => cases x <;> simp [dropLine, visibleAux, ih]

theorem dropLine_eof (b : List Sym) (h : (dropLine b).2 = true) : (dropLine b).1 = [] := by
  induction b with
  | nil => rfl
  | cons x r ih => cases x <;> simp_all [dropLine]

theorem skipws_head (b : List Sym) :
    skipws b = [] ∨ (∃ s m e r, skipws b = Sym.num s m e :: r) ∨ ∃ r, skipws b = Sym.bad :: r := by
  induction b with
  | nil => left; rfl
  | cons x r ih =>
    cases x with
    | num s m e => right; left; exact ⟨s, m, e, r, rfl⟩
    | bad => right; right; exact ⟨r, rfl⟩
    | sp => simpa [skipws] using ih
    | nl => simpa [skipws] using ih

theorem skipws_blank_append (ws : List Sym) (hws : ∀ x ∈ ws, x.isBlank = true) (x : Sym)
    (hx : x.isBlank = false) (r : List Sym) : skipws (ws ++ x :: r) = x :: r := by
  induction ws with
  | nil => cases x <;> simp_all [skipws, Sym.isBlank]
  | cons y t ih =>
    have hy : y.isBlank = true := hws y (List.mem_cons_self _ _)
    have ht : ∀ z ∈ t, z.isBlank = true := fun z hz => hws z (List.mem_cons_of_mem _ hz)
    cases y <;> simp_all [skipws, Sym.isBlank]

theorem dropLine_append_nl (line : List Sym) (hl : Sym.nl ∉ line) (r : List Sym) :
    dropLine (line ++ Sym.nl :: r) = (r, false) := by
  induction line with
  | nil => rfl
  | cons y t ih =>
    have hy : y ≠ Sym.nl := fun h => hl (h ▸ List.mem_cons_self _ _)
    have ht : Sym.nl ∉ t := fun h => hl (List.mem_cons_of_mem _ h)
    cases y <;> simp_all [dropLine]

/-- At the end of input the reader never returns. -/
theorem read_nil (prompt : String) (minVal maxVal : F64) :
    ∀ (fuel : Nat) (value : F64) (eb fb : Bool) (cout : List Out),
      read_double_strict prompt minVal maxVal fuel value ⟨[], eb, fb⟩ cout = none := by
  intro fuel
  induction fuel with
  | zero => intros; rfl
  | succ n ih =>
    intro value eb fb cout
    cases eb <;> cases fb <;>
      simp [read_double_strict, extract, good, skipws, clear, ignore, dropLine, ih]

/-- One iteration on a stream that is not `good()`: the rest of the line is dropped. -/
theorem read_step_notgood (prompt : String) (minVal maxVal : F64) (fuel : Nat) (value : F64)
    (cin : IStream) (cout : List Out) (h : cin.good = false) :
    read_double_strict prompt minVal maxVal (fuel + 1) value cin cout =
      read_double_strict prompt minVal maxVal fuel value
        ⟨(dropLine cin.buf).1, (dropLine cin.buf).2, false⟩
        (cout ++ [Out.str prompt] ++ [msgNotNumber]) := by
  obtain ⟨buf, eb, fb⟩ := cin
  cases eb <;> cases fb <;> simp_all [read_double_strict, extract, good, clear, ignore]

/-- One iteration that meets an item which does not convert. -/
theorem read_step_bad (prompt : String) (minVal maxVal : F64) (fuel : Nat) (value : F64)
    (buf r : List Sym) (cout : List Out) (h : skipws buf = Sym.bad :: r) :
    read_double_strict prompt minVal maxVal (fuel + 1) value ⟨buf, false, false⟩ cout =
      read_double_strict prompt minVal maxVal fuel 0
        ⟨(dropLine r).1, (dropLine r).2, false⟩
        (cout ++ [Out.str prompt] ++ [msgNotNumber]) := by
  simp [read_double_strict, extract, good, clear, ignore, h, dropLine]

/-- One iteration that converts a number followed by more input. -/
theorem read_step_num (prompt : String) (minVal maxVal : F64) (fuel : Nat) (value : F64)
    (buf r : List Sym) (s : Bool) (m e : Nat) (cout : List Out)
    (h : skipws buf = Sym.num s m e :: r) (hr : r ≠ []) :
    read_double_strict prompt minVal maxVal (fuel + 1) value ⟨buf, false, false⟩ cout =
      if F64.fin s m e < minVal ∨ F64.fin s m e > maxVal then
        read_double_strict prompt minVal maxVal fuel (F64.fin s m e) ⟨r, false, false⟩
          (cout ++ [Out.str prompt] ++ msgRange minVal maxVal)
      else some (F64.fin s m e, ⟨r, false, false⟩, cout ++ [Out.str prompt]) := by
  cases r with
  | nil => exact absurd rfl hr
  | cons x r => simp [read_double_strict, extract, good, h]

/-- One iteration that converts a number running up to the end of input: `good()`
is false, and the reader never returns. -/
theorem read_step_num_eof (prompt : String) (minVal maxVal : F64) (fuel : Nat) (value : F64)
    (buf : List Sym) (s : Bool) (m e : Nat) (cout : List Out)
    (h : skipws buf = [Sym.num s m e]) :
    read_double_strict prompt minVal maxVal fuel value ⟨buf, false, false⟩ cout = none := by
  cases fuel with
  | zero => rfl
  | succ n =>
    simp [read_double_strict, extract, good, h, clear, ignore, dropLine, read_nil]

theorem read_step_ws_eof (prompt : String) (minVal maxVal : F64) (fuel : Nat) (value : F64)
    (buf : List Sym) (cout : List Out) (h : skipws buf = []) :
    read_double_strict prompt minVal maxVal fuel value ⟨buf, false, false⟩ cout = none := by
  cases fuel with
  | zero => rfl
  | succ n =>
    simp [read_double_strict, extract, good, h, clear, ignore, dropLine, read_nil]

/-- Whatever the reader returns is the first in-range number among those it
gets to convert. -/
theorem read_sound (prompt : String) (minVal maxVal : F64) (hb : minVal ≤ maxVal) :
    ∀ (fuel : Nat) (value : F64) (cin : IStream) (cout : List Out) (v : F64) (cin1 : IStream)
      (cout1 : List Out),
      read_double_strict prompt minVal maxVal fuel value cin cout = some (v, cin1, cout1) →
      minVal ≤ v ∧ v ≤ maxVal ∧ (visible cin).find? (inRange minVal maxVal) = some v := by
  intro fuel
  induction fuel with
  | zero => intro value cin cout v cin1 cout1 h; simp [read_double_strict] at h
  | succ n ih =>
    intro value cin cout v cin1 cout1 h
    by_cases hg : cin.good = true
    · obtain ⟨buf, eb, fb⟩ := cin
      have heb : eb = false := by cases eb <;> simp_all [good]
      have hfb : fb = false := by cases fb <;> simp_all [good]
      subst heb hfb
      have hvis : visible ⟨buf, false, false⟩ = visibleAux false (skipws buf) := by
        simp [visible, good, visibleAux_skipws]
      rcases skipws_head buf with h0 | ⟨s, m, e, r, h1⟩ | ⟨r, h2⟩
      · rw [read_step_ws_eof prompt minVal maxVal _ value buf cout h0] at h
        exact absurd h (by simp)
      · by_cases hr : r = []
        · subst hr
          rw [read_step_num_eof prompt minVal maxVal _ value buf s m e cout h1] at h
          exact absurd h (by simp)
        · rw [read_step_num prompt minVal maxVal n value buf r s m e cout h1 hr] at h
          by_cases hc : F64.fin s m e < minVal ∨ F64.fin s m e > maxVal
          · rw [if_pos hc] at h
            obtain ⟨h1a, h1b, h1c⟩ := ih _ _ _ _ _ _ h
            refine ⟨h1a, h1b, ?_⟩
            have hnr : inRange minVal maxVal (F64.fin s m e) = false := by
              have := (F64.accept_iff s m e minVal maxVal hb).not.mp (not_not.mpr hc)
              simpa [inRange] using this
            rw [hvis, h1]
            simp only [visibleAux, List.find?_cons, hnr]
            simpa [visible, good] using h1c
          · rw [if_neg hc] at h
            have hacc := (F64.accept_iff s m e minVal maxVal hb).mp hc
            simp only [Option.some.injEq, Prod.mk.injEq] at h
            obtain ⟨hv, -, -⟩ := h
            subst hv
            refine ⟨hacc.1, hacc.2, ?_⟩
            rw [hvis, h1]
            have hir : inRange minVal maxVal (F64.fin s m e) = true := by
              simpa [inRange] using hacc
            simp [visibleAux, List.find?_cons, hir]
      · rw [read_step_bad prompt minVal maxVal n value buf r cout h2] at h
        by_cases he : (dropLine r).2 = true
        · rw [dropLine_eof r he, read_nil] at h
          exact absurd h (by simp)
        · have he2 : (dropLine r).2 = false := by simpa using he
          rw [he2] at h
          obtain ⟨h1a, h1b, h1c⟩ := ih _ _ _ _ _ _ h
          refine ⟨h1a, h1b, ?_⟩
          rw [hvis, h2]
          simp only [visibleAux]
          rw [← visibleAux_dropLine]
          simpa [visible, good] using h1c
    · have hg2 : cin.good = false := by simpa using hg
      rw [read_step_notgood prompt minVal maxVal n value cin cout hg2] at h
      by_cases he : (dropLine cin.buf).2 = true
      · rw [dropLine_eof _ he, read_nil] at h
        exact absurd h (by simp)
      · have he2 : (dropLine cin.buf).2 = false := by simpa using he
        rw [he2] at h
        obtain ⟨h1a, h1b, h1c⟩ := ih _ _ _ _ _ _ h
        refine ⟨h1a, h1b, ?_⟩
        have : visible cin = visibleAux false (dropLine cin.buf).1 := by
          simp [visible, hg2, visibleAux_dropLine]
        rw [this]
        simpa [visible, good] using h1c

/-- The reader only ever adds its prompt and its two error messages to the output. -/
theorem read_out (prompt : String) (minVal maxVal : F64) :
    ∀ (fuel : Nat) (value : F64) (cin : IStream) (cout : List Out) (v : F64) (cin1 : IStream)
      (cout1 : List Out),
      read_double_strict prompt minVal maxVal fuel value cin cout = some (v, cin1, cout1) →
      ∃ added, cout1 = cout ++ added ∧
        ∀ o ∈ added, o = Out.str prompt ∨ o = msgNotNumber ∨ o ∈ msgRange minVal maxVal := by
  intro fuel
  induction fuel with
  | zero => intro value cin cout v cin1 cout1 h; simp [read_double_strict] at h
  | succ n ih =>
    intro value cin cout v cin1 cout1 h
    unfold read_double_strict at h
    simp only at h
    split at h
    · obtain ⟨added, ha, hmem⟩ := ih _ _ _ _ _ _ h
      refine ⟨[Out.str prompt] ++ [msgNotNumber] ++ added, by simp [ha], ?_⟩
      intro o ho
      simp only [List.mem_append, List.mem_singleton] at ho
      rcases ho with (ho | ho) | ho
      · exact Or.inl ho
      · exact Or.inr (Or.inl ho)
      · exact hmem o ho
    · split at h
      · obtain ⟨added, ha, hmem⟩ := ih _ _ _ _ _ _ h
        refine ⟨[Out.str prompt] ++ msgRange minVal maxVal ++ added, by simp [ha], ?_⟩
        intro o ho
        simp only [List.mem_append, List.mem_singleton] at ho
        rcases ho with (ho | ho) | ho
        · exact Or.inl ho
        · exact Or.inr (Or.inr ho)
        · exact hmem o ho
      · simp only [Option.some.injEq, Prod.mk.injEq] at h
        obtain ⟨-, -, hc⟩ := h
        refine ⟨[Out.str prompt], hc.symm, ?_⟩
        intro o ho
        exact Or.inl (by simpa using ho)

theorem read_out_no_warning (prompt : String) (minVal maxVal : F64) (fuel : Nat) (value : F64)
    (cin : IStream) (cout : List Out) (v : F64) (cin1 : IStream) (cout1 : List Out)
    (hp : Out.str prompt ≠ msgKwWarning)
    (h : read_double_strict prompt minVal maxVal fuel value cin cout = some (v, cin1, cout1))
    (hc : msgKwWarning ∉ cout) : msgKwWarning ∉ cout1 := by
  obtain ⟨added, ha, hmem⟩ := read_out prompt minVal maxVal fuel value cin cout v cin1 cout1 h
  rw [ha]
  intro hin
  rcases List.mem_append.mp hin with h1 | h1
  · exact hc h1
  · rcases hmem _ h1 with h2 | h2 | h2
    · exact hp h2.symm
    · exact absurd h2 (by decide)
    · simp [msgRange, msgKwWarning] at h2

/-- What menu item 8 does whenever it completes. -/
theorem main_choice8_sound (fuel : Nat) (value : F64) (cin : IStream) (cout : List Out)
    (cin1 : IStream) (cout1 : List Out)
    (h : main_choice8 fuel value cin cout = some (cin1, cout1)) :
    ∃ BH OH B c1 c2 o1 o2 o3,
      read_double_strict "[BH+]: " CONC_MIN CONC_MAX fuel value cin
          (cout ++ [Out.str "Введите РАВНОВЕСНЫЕ концентрации!\n"]) = some (BH, c1, o1) ∧
      read_double_strict "[OH-]: " CONC_MIN CONC_MAX fuel value c1 o1 = some (OH, c2, o2) ∧
      read_double_strict "[B]: " CONC_MIN CONC_MAX fuel value c2 o2 = some (B, cin1, o3) ∧
      CONC_MIN ≤ OH ∧ OH ≤ CONC_MAX ∧ ¬ kb_rel_err OH > 1e-3 ∧
      cout1 = o3 ++ [Out.str "Kb = ", Out.dbl (calc_Kb BH OH B), Out.str "\n"] ∧
      (msgKwWarning ∉ cout → msgKwWarning ∉ cout1) := by
  unfold main_choice8 at h
  simp only at h
  split at h
  · exact absurd h (by simp)
  · rename_i BH c1 o1 hr1
    split at h
    · exact absurd h (by simp)
    · rename_i OH c2 o2 hr2
      split at h
      · exact absurd h (by simp)
      · rename_i B c3 o3 hr3
        have hb : CONC_MIN ≤ CONC_MAX := by decide
        obtain ⟨hlo, hhi, -⟩ := read_sound "[OH-]: " CONC_MIN CONC_MAX hb _ _ _ _ _ _ _ hr2
        have hnw := (kb_no_warning OH hlo hhi).1
        rw [if_neg hnw] at h
        simp only [Option.some.injEq, Prod.mk.injEq] at h
        obtain ⟨hc3, hco⟩ := h
        subst hc3
        refine ⟨BH, OH, B, c1, c2, o1, o2, o3, hr1, hr2, hr3, hlo, hhi, hnw, hco.symm, ?_⟩
        intro hc
        have w0 : msgKwWarning ∉ cout ++ [Out.str "Введите РАВНОВЕСНЫЕ концентрации!\n"] := by
          intro hin
          rcases List.mem_append.mp hin with h1 | h1
          · exact hc h1
          · exact absurd (List.mem_singleton.mp h1) (by decide)
        have w1 := read_out_no_warning _ _ _ _ _ _ _ _ _ _ (by decide) hr1 w0
        have w2 := read_out_no_warning _ _ _ _ _ _ _ _ _ _ (by decide) hr2 w1
        have w3 := read_out_no_warning _ _ _ _ _ _ _ _ _ _ (by decide) hr3 w2
        rw [← hco]
        intro hin
        rcases List.mem_append.mp hin with h1 | h1
        · exact w3 h1
        · simp [msgKwWarning] at h1

/-- One iteration on a good stream whose next item is an in-range number
followed by more input: the reader prompts once and returns that number. -/
theorem read_accept (prompt : String) (minVal maxVal : F64) (fuel : Nat) (value : F64)
    (ws rest : List Sym) (s : Bool) (m e : Nat) (cout : List Out)
    (hws : ∀ x ∈ ws, x.isBlank = true) (hrest : rest ≠ [])
    (hlo : minVal ≤ F64.fin s m e) (hhi : F64.fin s m e ≤ maxVal) :
    read_double_strict prompt minVal maxVal (fuel + 1) value
        ⟨ws ++ Sym.num s m e :: rest, false, false⟩ cout
      = some (F64.fin s m e, ⟨rest, false, false⟩, cout ++ [Out.str prompt]) := by
  rw [read_step_num prompt minVal maxVal fuel value _ rest s m e cout
        (skipws_blank_append ws hws (Sym.num s m e) rfl rest) hrest,
      if_neg (F64.accept_of_le s m e minVal maxVal hlo hhi)]

/-- Menu item 8 completes whenever its three reads do, and then prints the
reads' output followed by the `Kb` line, without the warning. -/
theorem main_choice8_complete (fuel : Nat) (value : F64) (cin : IStream) (cout : List Out)
    (BH OH B : F64) (c1 c2 c3 : IStream) (o1 o2 o3 : List Out)
    (h1 : read_double_strict "[BH+]: " CONC_MIN CONC_MAX fuel value cin
      (cout ++ [Out.str "Введите РАВНОВЕСНЫЕ концентрации!\n"]) = some (BH, c1, o1))
    (h2 : read_double_strict "[OH-]: " CONC_MIN CONC_MAX fuel value c1 o1 = some (OH, c2, o2))
    (h3 : read_double_strict "[B]: " CONC_MIN CONC_MAX fuel value c2 o2 = some (B, c3, o3)) :
    main_choice8 fuel value cin cout
      = some (c3, o3 ++ [Out.str "Kb = ", Out.dbl (calc_Kb BH OH B), Out.str "\n"]) := by
  obtain ⟨hlo, hhi, -⟩ :=
    read_sound "[OH-]: " CONC_MIN CONC_MAX (by decide) _ _ _ _ _ _ _ h2
  have hnw := (kb_no_warning OH hlo hhi).1
  unfold main_choice8
  simp only [h1, h2, h3, if_neg hnw]

/-- Menu item 8 on three in-range concentrations, each followed by more input. -/
theorem main_choice8_run (fuel : Nat) (value : F64) (cout : List Out)
    (s1 : Bool) (m1 e1 : Nat) (s2 : Bool) (m2 e2 : Nat) (s3 : Bool) (m3 e3 : Nat)
    (ws1 ws2 ws3 rest : List Sym)
    (hws1 : ∀ x ∈ ws1, x.isBlank = true) (hws2 : ∀ x ∈ ws2, x.isBlank = true)
    (hws3 : ∀ x ∈ ws3, x.isBlank = true) (hrest : rest ≠ [])
    (hBH : CONC_MIN ≤ F64.fin s1 m1 e1 ∧ F64.fin s1 m1 e1 ≤ CONC_MAX)
    (hOH : CONC_MIN ≤ F64.fin s2 m2 e2 ∧ F64.fin s2 m2 e2 ≤ CONC_MAX)
    (hB : CONC_MIN ≤ F64.fin s3 m3 e3 ∧ F64.fin s3 m3 e3 ≤ CONC_MAX) :
    main_choice8 (fuel + 1) value
        ⟨ws1 ++ Sym.num s1 m1 e1 :: (ws2 ++ Sym.num s2 m2 e2 :: (ws3 ++ Sym.num s3 m3 e3 :: rest)),
          false, false⟩ cout
      = some (⟨rest, false, false⟩,
          cout ++ [Out.str "Введите РАВНОВЕСНЫЕ концентрации!\n"] ++ [Out.str "[BH+]: "]
            ++ [Out.str "[OH-]: "] ++ [Out.str "[B]: "]
            ++ [Out.str "Kb = ",
                Out.dbl (calc_Kb (F64.fin s1 m1 e1) (F64.fin s2 m2 e2) (F64.fin s3 m3 e3)),
                Out.str "\n"]) :=
  main_choice8_complete (fuel + 1) value _ cout _ _ _ _ _ _ _ _ _
    (read_accept "[BH+]: " CONC_MIN CONC_MAX fuel value ws1 _ s1 m1 e1 _ hws1 (by simp)
      hBH.1 hBH.2)
    (read_accept "[OH-]: " CONC_MIN CONC_MAX fuel value ws2 _ s2 m2 e2 _ hws2 (by simp)
      hOH.1 hOH.2)
    (read_accept "[B]: " CONC_MIN CONC_MAX fuel value ws3 rest s3 m3 e3 _ hws3 hrest
      hB.1 hB.2)

/-! ## The reader: claims C1 to C3 -/

/-- C1 (counterexample): on the input `abc 5` + newline + `7` + newline with bounds
`[0, 10]` the reader returns `7`, although the first value in the stream that
satisfies `0 <= value <= 10` is `5`. -/
theorem read_double_strict_skips_value_on_discarded_line :
    read_double_strict "x: " 0 10 2 0
        ⟨[Sym.bad, Sym.sp, Sym.lit 5, Sym.nl, Sym.lit 7, Sym.nl], false, false⟩ []
      = some (7, ⟨[Sym.nl], false, false⟩, [Out.str "x: ", msgNotNumber, Out.str "x: "]) ∧
    (values [Sym.bad, Sym.sp, Sym.lit 5, Sym.nl, Sym.lit 7, Sym.nl]).find? (inRange 0 10)
      = some 5 := by
  decide

/-- C1 (as amended): for bounds `minVal <= maxVal`, whenever `read_double_strict`
returns, the value `v` it returns satisfies `minVal <= v <= maxVal` (so it is a
number, never an error value) and is the first in-range value among the numbers
the reader gets to convert, `visible cin`: numbers on the rest of a line after an
item that failed to convert are dropped unread and do not count.  Not returning
is the result `none` for every amount of fuel. -/
theorem read_double_strict_returns_first_visible (prompt : String) (minVal maxVal : F64)
    (fuel : Nat) (value : F64) (cin : IStream) (cout : List Out) (v : F64) (cin1 : IStream)
    (cout1 : List Out) (hb : minVal ≤ maxVal)
    (h : read_double_strict prompt minVal maxVal fuel value cin cout = some (v, cin1, cout1)) :
    minVal ≤ v ∧ v ≤ maxVal ∧ (visible cin).find? (inRange minVal maxVal) = some v :=
  read_sound prompt minVal maxVal hb fuel value cin cout v cin1 cout1 h

theorem read_double_strict_returns_first_visible_witness :
    (0 : F64) ≤ 10 ∧
    read_double_strict "x: " 0 10 2 0
        ⟨[Sym.bad, Sym.sp, Sym.lit 5, Sym.nl, Sym.lit 7, Sym.nl], false, false⟩ []
      = some (7, ⟨[Sym.nl], false, false⟩, [Out.str "x: ", msgNotNumber, Out.str "x: "]) ∧
    ((0 : F64) ≤ 7 ∧ (7 : F64) ≤ 10 ∧
      (visible ⟨[Sym.bad, Sym.sp, Sym.lit 5, Sym.nl, Sym.lit 7, Sym.nl], false, false⟩).find?
        (inRange 0 10) = some 7) :=
  ⟨by decide, by decide,
    read_double_strict_returns_first_visible "x: " 0 10 2 0
      ⟨[Sym.bad, Sym.sp, Sym.lit 5, Sym.nl, Sym.lit 7, Sym.nl], false, false⟩ [] 7
      ⟨[Sym.nl], false, false⟩ [Out.str "x: ", msgNotNumber, Out.str "x: "]
      (by decide) (by decide)⟩

/-- C2 (counterexample): on the input `abc 5` + newline with bounds `[0, 10]` the
second token shares the line of the unparsable one, is discarded with it, and the
reader never returns; followed by a line `7` the reader returns `7`, not `5`. -/
theorem read_double_strict_same_line_discarded :
    (¬ ∃ fuel r, read_double_strict "x: " 0 10 fuel 0
        ⟨[Sym.bad, Sym.sp, Sym.lit 5, Sym.nl], false, false⟩ [] = some r) ∧
    read_double_strict "x: " 0 10 2 0
        ⟨[Sym.bad, Sym.sp, Sym.lit 5, Sym.nl, Sym.lit 7, Sym.nl], false, false⟩ []
      = some (7, ⟨[Sym.nl], false, false⟩, [Out.str "x: ", msgNotNumber, Out.str "x: "]) := by
  refine ⟨?_, by decide⟩
  rintro ⟨fuel, r, h⟩
  cases fuel with
  | zero => simp [read_double_strict] at h
  | succ n =>
    rw [read_step_bad "x: " 0 10 n 0 [Sym.bad, Sym.sp, Sym.lit 5, Sym.nl]
      [Sym.sp, Sym.lit 5, Sym.nl] [] rfl] at h
    have hd : dropLine [Sym.sp, Sym.lit 5, Sym.nl] = ([], false) := by decide
    rw [hd, read_nil] at h
    exact absurd h (by simp)

/-- C2 (as amended): when the input holds an item that does not convert to a
number, then anything up to the end of that line, then (on a later line) an
in-range number `v` followed by at least one more character, the reader prints
its prompt, reports the parse error, drops the rest of the first item's line,
prompts again, accepts `v` and returns it, leaving the input after `v` unread. -/
theorem read_double_strict_rejects_unparsable_line (prompt : String) (minVal maxVal : F64)
    (s : Bool) (m e : Nat) (ws1 line ws2 rest : List Sym) (fuel : Nat) (value : F64)
    (cout : List Out)
    (hlo : minVal ≤ F64.fin s m e) (hhi : F64.fin s m e ≤ maxVal)
    (hws1 : ∀ x ∈ ws1, x.isBlank = true) (hline : Sym.nl ∉ line)
    (hws2 : ∀ x ∈ ws2, x.isBlank = true) (hrest : rest ≠ []) :
    read_double_strict prompt minVal maxVal (fuel + 2) value
        ⟨ws1 ++ Sym.bad :: (line ++ Sym.nl :: (ws2 ++ Sym.num s m e :: rest)), false, false⟩ cout
      = some (F64.fin s m e, ⟨rest, false, false⟩,
          cout ++ [Out.str prompt, msgNotNumber, Out.str prompt]) := by
  rw [read_step_bad prompt minVal maxVal (fuel + 1) value _ _ cout
        (skipws_blank_append ws1 hws1 Sym.bad rfl _),
      dropLine_append_nl line hline,
      read_step_num prompt minVal maxVal fuel 0 _ rest s m e _
        (skipws_blank_append ws2 hws2 (Sym.num s m e) rfl rest) hrest,
      if_neg (F64.accept_of_le s m e minVal maxVal hlo hhi)]
  simp

theorem read_double_strict_rejects_unparsable_line_witness :
    (5 : F64) = F64.fin false (5 * 2 ^ 50) 1024 ∧
    (0 : F64) ≤ F64.fin false (5 * 2 ^ 50) 1024 ∧ F64.fin false (5 * 2 ^ 50) 1024 ≤ (10 : F64) ∧
    read_double_strict "x: " 0 10 (0 + 2) 0
        ⟨[] ++ Sym.bad :: ([] ++ Sym.nl :: ([] ++ Sym.num false (5 * 2 ^ 50) 1024 :: [Sym.nl])),
          false, false⟩ []
      = some (F64.fin false (5 * 2 ^ 50) 1024, ⟨[Sym.nl], false, false⟩,
          [] ++ [Out.str "x: ", msgNotNumber, Out.str "x: "]) :=
  ⟨by decide, by decide, by decide,
    read_double_strict_rejects_unparsable_line "x: " 0 10 false (5 * 2 ^ 50) 1024 [] [] []
      [Sym.nl] 0 0 [] (by decide) (by decide) (by simp) (by simp) (by simp) (by simp)⟩

/-- C3 (the code at the failing input): on the input `15 3` that ends right after
the `3`, with bounds `[0, 10]`, the extraction of `3` succeeds but sets `eofbit`,
so `good()` is false, the number is treated as a parse error, and the reader
never returns. -/
theorem read_double_strict_number_at_eof_rejected :
    IStream.extract ⟨[Sym.lit 3], false, false⟩ 15 = (3, ⟨[], true, false⟩) ∧
    (IStream.extract ⟨[Sym.lit 3], false, false⟩ 15).2.good = false ∧
    ∀ fuel, read_double_strict "x: " 0 10 fuel 0
      ⟨[Sym.lit 15, Sym.sp, Sym.lit 3], false, false⟩ [] = none := by
  refine ⟨by decide, by decide, ?_⟩
  intro fuel
  cases fuel with
  | zero => rfl
  | succ n =>
    have h15 : Sym.lit 15 = Sym.num false (15 * 2 ^ 49) 1025 := by decide
    have h3 : Sym.lit 3 = Sym.num false (3 * 2 ^ 51) 1023 := by decide
    rw [h15, h3, read_step_num "x: " 0 10 n 0
      [Sym.num false (15 * 2 ^ 49) 1025, Sym.sp, Sym.num false (3 * 2 ^ 51) 1023]
      [Sym.sp, Sym.num false (3 * 2 ^ 51) 1023] false (15 * 2 ^ 49) 1025 [] rfl (by simp)]
    rw [if_pos (by decide)]
    exact read_step_num_eof "x: " 0 10 n _ [Sym.sp, Sym.num false (3 * 2 ^ 51) 1023] false
      (3 * 2 ^ 51) 1023 _ rfl

/-- The behaviour C3 describes, for input that goes on after the second number:
an out-of-range number `x` followed (on the same line or a later one) by an
in-range number `v` and at least one more character makes the reader report the
range error, keep the rest of the line, prompt again and return `v`. -/
theorem read_double_strict_range_error_keeps_line (prompt : String) (minVal maxVal : F64)
    (sx : Bool) (mx ex : Nat) (s : Bool) (m e : Nat) (ws1 ws2 rest : List Sym) (fuel : Nat)
    (value : F64) (cout : List Out)
    (hx : F64.fin sx mx ex < minVal ∨ F64.fin sx mx ex > maxVal)
    (hlo : minVal ≤ F64.fin s m e) (hhi : F64.fin s m e ≤ maxVal)
    (hws1 : ∀ x ∈ ws1, x.isBlank = true) (hws2 : ∀ x ∈ ws2, x.isBlank = true)
    (hrest : rest ≠ []) :
    read_double_strict prompt minVal maxVal (fuel + 2) value
        ⟨ws1 ++ Sym.num sx mx ex :: (ws2 ++ Sym.num s m e :: rest), false, false⟩ cout
      = some (F64.fin s m e, ⟨rest, false, false⟩,
          cout ++ [Out.str prompt] ++ msgRange minVal maxVal ++ [Out.str prompt]) := by
  rw [read_step_num prompt minVal maxVal (fuel + 1) value _ _ sx mx ex cout
        (skipws_blank_append ws1 hws1 (Sym.num sx mx ex) rfl _) (by simp),
      if_pos hx,
      read_step_num prompt minVal maxVal fuel _ _ rest s m e _
        (skipws_blank_append ws2 hws2 (Sym.num s m e) rfl rest) hrest,
      if_neg (F64.accept_of_le s m e minVal maxVal hlo hhi)]

/-! ## The formula library: claims C4, C5, C7, C8 -/

/-- C4: `calc_equilibrium` returns `+infinity` when `reactants <= 0` and
`products / reactants` otherwise; `calc_equilibrium(2.0, 0.0)` is `+infinity` and
`calc_equilibrium(4.0, 2.0)` is `2.0`. -/
theorem calc_equilibrium_spec (products reactants : F64) :
    (reactants ≤ 0 → calc_equilibrium products reactants = INFINITY) ∧
    (¬ reactants ≤ 0 → calc_equilibrium products reactants = products / reactants) ∧
    calc_equilibrium 2.0 0.0 = INFINITY ∧
    calc_equilibrium 4.0 2.0 = 2.0 := by
  refine ⟨fun h => ?_, fun h => ?_, by decide, by decide⟩
  · simp [calc_equilibrium, h, INFINITY]
  · simp [calc_equilibrium, h]

theorem calc_equilibrium_spec_witness :
    (0.0 : F64) ≤ 0 ∧ calc_equilibrium 2.0 0.0 = INFINITY ∧
    ¬ (2.0 : F64) ≤ 0 ∧ calc_equilibrium 4.0 2.0 = (4.0 : F64) / 2.0 :=
  ⟨by decide, (calc_equilibrium_spec 2.0 0.0).1 (by decide), by decide,
    (calc_equilibrium_spec 4.0 2.0).2.1 (by decide)⟩

/-- C5 (counterexample): in double arithmetic `calc_Ka(1e-5, 1e-5, 1e-3)` is not the
double `1e-7` but the next double above it, `1.0000000000000001e-07`. -/
theorem calc_Ka_example_not_exact :
    calc_Ka 1e-5 1e-5 1e-3 = F64.fin false 7555786372591433 998 ∧
    (1e-7 : F64) = F64.fin false 7555786372591432 998 ∧
    calc_Ka 1e-5 1e-5 1e-3 ≠ 1e-7 := by
  decide

/-- C5 (as amended): `calc_Ka(H, A, HA)` and `calc_Kb(BH, OH, B)` return `+infinity`
when the third argument is `<= 0` and otherwise the rounded product of the first
two divided by the third; `calc_Ka(1e-5, 1e-5, 1e-3)` is the double next above
`1e-7` (one unit in the last place away). -/
theorem calc_Ka_Kb_spec (x y z : F64) :
    (z ≤ 0 → calc_Ka x y z = INFINITY ∧ calc_Kb x y z = INFINITY) ∧
    (¬ z ≤ 0 → calc_Ka x y z = (x * y) / z ∧ calc_Kb x y z = (x * y) / z) ∧
    calc_Ka 1e-5 1e-5 1e-3 = F64.fin false (7555786372591432 + 1) 998 ∧
    (1e-7 : F64) = F64.fin false 7555786372591432 998 := by
  refine ⟨fun h => ?_, fun h => ?_, by decide, by decide⟩
  · simp [calc_Ka, calc_Kb, h, INFINITY]
  · simp [calc_Ka, calc_Kb, h]

theorem calc_Ka_Kb_spec_witness :
    (calc_Ka 1e-5 1e-5 (-1.0) = INFINITY ∧ calc_Kb 1e-5 1e-5 (-1.0) = INFINITY) ∧
    (calc_Ka 1e-5 1e-5 1e-3 = ((1e-5 : F64) * 1e-5) / 1e-3 ∧
      calc_Kb 1e-5 1e-5 1e-3 = ((1e-5 : F64) * 1e-5) / 1e-3) :=
  ⟨(calc_Ka_Kb_spec 1e-5 1e-5 (-1.0)).1 (by decide),
    (calc_Ka_Kb_spec 1e-5 1e-5 1e-3).2.1 (by decide)⟩

/-- C7 (counterexample): with `log(1.0) = +0`, at `T = 1e308` the product `-R * T`
overflows to `-infinity` and `calc_Gibbs(1.0, T)` is NaN, which does not compare
equal to `0.0`; so "returns 0.0 for every T" fails. -/
theorem calc_Gibbs_overflow_counterexample :
    -R * (1e308 : F64) = F64.inf true ∧
    F64.inf true * (0 : F64) = F64.nan ∧
    ¬ ∀ (lm : Libm) (T : F64), lm.log 1.0 = 0 → 0 < T →
        F64.eq754 (calc_Gibbs lm 1.0 T) 0 := by
  refine ⟨by decide, by decide, fun h => ?_⟩
  have h1 := h ⟨fun _ => 0, fun _ => 0, fun _ _ => 0⟩ 1e308 rfl (by decide)
  revert h1
  decide

/-- C7 (as amended): `calc_Gibbs(K, T)` is `-R * T * log(K)` with `R = 8.314`, each
product rounded; and when the library's `log(1.0)` is `+0`, for every `T` with
`0 < T <= 5e306` (so that `R * T` does not overflow; this covers the range
`[1, 5000]` the program reads `T` from) `calc_Gibbs(1.0, T)` is negative zero,
which compares equal to `0.0`. -/
theorem calc_Gibbs_spec (lm : Libm) (K T : F64) :
    calc_Gibbs lm K T = -R * T * lm.log K ∧ R = 8.314 ∧
    (lm.log 1.0 = 0 → 0 < T → T ≤ 5e306 →
      calc_Gibbs lm 1.0 T = F64.fin true 0 0 ∧ F64.eq754 (calc_Gibbs lm 1.0 T) 0) := by
  refine ⟨rfl, rfl, fun hlog h0 hT => ?_⟩
  have h := gibbs_at_one lm T hlog h0 hT
  rw [h]
  exact ⟨rfl, by decide⟩

theorem calc_Gibbs_spec_witness :
    (0 : F64) < 298.0 ∧ (298.0 : F64) ≤ 5e306 ∧
    (calc_Gibbs ⟨fun _ => 0, fun _ => 0, fun _ _ => 0⟩ 1.0 298.0 = F64.fin true 0 0 ∧
      F64.eq754 (calc_Gibbs ⟨fun _ => 0, fun _ => 0, fun _ _ => 0⟩ 1.0 298.0) 0) :=
  ⟨by decide, by decide,
    (calc_Gibbs_spec ⟨fun _ => 0, fun _ => 0, fun _ _ => 0⟩ 1.0 298.0).2.2 rfl (by decide)
      (by decide)⟩

/-- C8 (counterexample): in double arithmetic `calc_Kh_from_Ka(1e-5)` is not the
double `1e-9` but the next double below it, `9.999999999999999e-10`. -/
theorem calc_Kh_example_not_exact :
    calc_Kh_from_Ka 1e-5 = F64.fin false 4835703278458516 992 ∧
    (1e-9 : F64) = F64.fin false 4835703278458517 992 ∧
    calc_Kh_from_Ka 1e-5 ≠ 1e-9 := by
  decide

/-- C8 (as amended): `calc_Kh_from_Ka(Ka)` is the rounded quotient `Kw / Ka` with
`Kw = 1e-14`, `calc_Kh_from_Kb` is the same function, and `calc_Kh_from_Ka(1e-5)`
is the double next below `1e-9` (one unit in the last place away). -/
theorem calc_Kh_spec (Ka : F64) :
    calc_Kh_from_Ka Ka = Kw / Ka ∧ calc_Kh_from_Kb Ka = calc_Kh_from_Ka Ka ∧ Kw = 1e-14 ∧
    calc_Kh_from_Ka 1e-5 = F64.fin false (4835703278458517 - 1) 992 ∧
    (1e-9 : F64) = F64.fin false 4835703278458517 992 :=
  ⟨rfl, rfl, rfl, by decide, by decide⟩

/-! ## The consistency check of menu item 8: claim C9 -/

/-- C9: for every `OH` within the bounds the reader enforces
(`CONC_MIN <= OH <= CONC_MAX`), the relative error
`fabs((Kw / OH) * OH - Kw) / Kw` computed in doubles is not greater than `1e-3`,
so no warning is printed; for `OH = 1e-7` and `OH = 1e-3` it is exactly zero.
Menu item 8 completes exactly when its three reads do: whenever it completes,
and whenever the three reads return, its output is the output of the reads
followed by `Kb = calc_Kb(BH, OH, B)` for the three values read, with no
warning added; in particular, on three in-range concentrations, each followed
by at least one more character, it returns after one prompt each and prints
that line. -/
theorem kb_consistency_check_never_warns :
    (∀ OH : F64, kb_rel_err OH = F64.fabs ((Kw / OH) * OH - Kw) / Kw) ∧
    (∀ OH : F64, CONC_MIN ≤ OH → OH ≤ CONC_MAX →
      kb_rel_err OH ≤ 1e-3 ∧ ¬ kb_rel_err OH > 1e-3) ∧
    kb_rel_err 1e-7 = 0 ∧ kb_rel_err 1e-3 = 0 ∧
    (∀ (fuel : Nat) (value : F64) (cin : IStream) (cout : List Out) (cin1 : IStream)
      (cout1 : List Out), main_choice8 fuel value cin cout = some (cin1, cout1) →
      ∃ BH OH B c1 c2 o1 o2 o3,
        read_double_strict "[BH+]: " CONC_MIN CONC_MAX fuel value cin
            (cout ++ [Out.str "Введите РАВНОВЕСНЫЕ концентрации!\n"]) = some (BH, c1, o1) ∧
        read_double_strict "[OH-]: " CONC_MIN CONC_MAX fuel value c1 o1 = some (OH, c2, o2) ∧
        read_double_strict "[B]: " CONC_MIN CONC_MAX fuel value c2 o2 = some (B, cin1, o3) ∧
        CONC_MIN ≤ OH ∧ OH ≤ CONC_MAX ∧ ¬ kb_rel_err OH > 1e-3 ∧
        cout1 = o3 ++ [Out.str "Kb = ", Out.dbl (calc_Kb BH OH B), Out.str "\n"] ∧
        (msgKwWarning ∉ cout → msgKwWarning ∉ cout1)) ∧
    (∀ (fuel : Nat) (value : F64) (cin : IStream) (cout : List Out) (BH OH B : F64)
      (c1 c2 c3 : IStream) (o1 o2 o3 : List Out),
      read_double_strict "[BH+]: " CONC_MIN CONC_MAX fuel value cin
          (cout ++ [Out.str "Введите РАВНОВЕСНЫЕ концентрации!\n"]) = some (BH, c1, o1) →
      read_double_strict "[OH-]: " CONC_MIN CONC_MAX fuel value c1 o1 = some (OH, c2, o2) →
      read_double_strict "[B]: " CONC_MIN CONC_MAX fuel value c2 o2 = some (B, c3, o3) →
      main_choice8 fuel value cin cout
        = some (c3, o3 ++ [Out.str "Kb = ", Out.dbl (calc_Kb BH OH B), Out.str "\n"])) ∧
    (∀ (fuel : Nat) (value : F64) (cout : List Out)
      (s1 : Bool) (m1 e1 : Nat) (s2 : Bool) (m2 e2 : Nat) (s3 : Bool) (m3 e3 : Nat)
      (ws1 ws2 ws3 rest : List Sym),
      (∀ x ∈ ws1, x.isBlank = true) → (∀ x ∈ ws2, x.isBlank = true) →
      (∀ x ∈ ws3, x.isBlank = true) → rest ≠ [] →
      CONC_MIN ≤ F64.fin s1 m1 e1 ∧ F64.fin s1 m1 e1 ≤ CONC_MAX →
      CONC_MIN ≤ F64.fin s2 m2 e2 ∧ F64.fin s2 m2 e2 ≤ CONC_MAX →
      CONC_MIN ≤ F64.fin s3 m3 e3 ∧ F64.fin s3 m3 e3 ≤ CONC_MAX →
      main_choice8 (fuel + 1) value
          ⟨ws1 ++ Sym.num s1 m1 e1 ::
            (ws2 ++ Sym.num s2 m2 e2 :: (ws3 ++ Sym.num s3 m3 e3 :: rest)), false, false⟩ cout
        = some (⟨rest, false, false⟩,
            cout ++ [Out.str "Введите РАВНОВЕСНЫЕ концентрации!\n"] ++ [Out.str "[BH+]: "]
              ++ [Out.str "[OH-]: "] ++ [Out.str "[B]: "]
              ++ [Out.str "Kb = ",
                  Out.dbl (calc_Kb (F64.fin s1 m1 e1) (F64.fin s2 m2 e2) (F64.fin s3 m3 e3)),
                  Out.str "\n"])) := by
  refine ⟨fun _ => rfl, fun OH h1 h2 => ?_, by decide, by decide, ?_, ?_, ?_⟩
  · exact ⟨(kb_no_warning OH h1 h2).2, (kb_no_warning OH h1 h2).1⟩
  · intro fuel value cin cout cin1 cout1 h
    exact main_choice8_sound fuel value cin cout cin1 cout1 h
  · intro fuel value cin cout BH OH B c1 c2 c3 o1 o2 o3 h1 h2 h3
    exact main_choice8_complete fuel value cin cout BH OH B c1 c2 c3 o1 o2 o3 h1 h2 h3
  · intro fuel value cout s1 m1 e1 s2 m2 e2 s3 m3 e3 ws1 ws2 ws3 rest hw1 hw2 hw3 hr hBH hOH hB
    exact main_choice8_run fuel value cout s1 m1 e1 s2 m2 e2 s3 m3 e3 ws1 ws2 ws3 rest
      hw1 hw2 hw3 hr hBH hOH hB

theorem kb_consistency_check_never_warns_witness :
    (CONC_MIN ≤ (0.5 : F64) ∧ (0.5 : F64) ≤ CONC_MAX ∧
      (kb_rel_err 0.5 ≤ 1e-3 ∧ ¬ kb_rel_err 0.5 > 1e-3)) ∧
    ((1e-3 : F64) = F64.fin false 4611686018427388 1012 ∧
      (1e-7 : F64) = F64.fin false 7555786372591432 998 ∧
      (2 : F64) = F64.fin false 4503599627370496 1023) ∧
    main_choice8 (0 + 1) 0
        ⟨[] ++ Sym.num false 4611686018427388 1012 ::
          ([Sym.nl] ++ Sym.num false 7555786372591432 998 ::
            ([Sym.sp] ++ Sym.num false 4503599627370496 1023 :: [Sym.nl])), false, false⟩ []
      = some (⟨[Sym.nl], false, false⟩,
          [] ++ [Out.str "Введите РАВНОВЕСНЫЕ концентрации!\n"] ++ [Out.str "[BH+]: "]
            ++ [Out.str "[OH-]: "] ++ [Out.str "[B]: "]
            ++ [Out.str "Kb = ",
                Out.dbl (calc_Kb (F64.fin false 4611686018427388 1012)
                  (F64.fin false 7555786372591432 998) (F64.fin false 4503599627370496 1023)),
                Out.str "\n"]) :=
  ⟨⟨by decide, by decide, kb_consistency_check_never_warns.2.1 0.5 (by decide) (by decide)⟩,
    ⟨by decide, by decide, by decide⟩,
    kb_consistency_check_never_warns.2.2.2.2.2.2 0 0 [] false 4611686018427388 1012
      false 7555786372591432 998 false 4503599627370496 1023 [] [Sym.nl] [Sym.sp] [Sym.nl]
      (by simp) (by simp [Sym.isBlank]) (by simp [Sym.isBlank]) (by simp)
      ⟨by decide, by decide⟩ ⟨by decide, by decide⟩ ⟨by decide, by decide⟩⟩

/-! ## Menu item 2: the part of claim C10 that does not depend on the C library -/

/-- Whenever menu item 2 completes, the concentration it read lies within the
bounds, is strictly positive, and `pH = calc_pH(H)` is what it printed. -/
theorem main_choice2_reads_positive (lm : Libm) (fuel : Nat) (value : F64) (cin : IStream)
    (cout : List Out) (cin1 : IStream) (cout1 : List Out)
    (h : main_choice2 lm fuel value cin cout = some (cin1, cout1)) :
    ∃ H o, read_double_strict "[H+] (М): " CONC_MIN CONC_MAX fuel value cin cout
        = some (H, cin1, o) ∧
      CONC_MIN ≤ H ∧ H ≤ CONC_MAX ∧ 0 < H ∧
      cout1 = o ++ [Out.str "pH = ", Out.dbl (calc_pH lm H), Out.str "\n"] := by
  unfold main_choice2 at h
  split at h
  · exact absurd h (by simp)
  · rename_i H c o hr
    simp only [Option.some.injEq, Prod.mk.injEq] at h
    obtain ⟨hc, hco⟩ := h
    subst hc
    obtain ⟨hlo, hhi, -⟩ :=
      read_sound "[H+] (М): " CONC_MIN CONC_MAX (by decide) _ _ _ _ _ _ _ hr
    refine ⟨H, o, hr, hlo, hhi, ?_, hco.symm⟩
    obtain ⟨m, e, rfl, hm, -⟩ := conc_bounds H hlo hhi
    rw [zero_eq]
    simp only [F64.lt_iff, F64.blt, F64.units, decide_eq_true_eq]
    simp only [Bool.false_eq_true, if_false]
    have : 0 * 2 ^ 0 < m * 2 ^ e := lt_of_lt_of_le (by norm_num) hm
    exact_mod_cast this

end ChemCalc
